import Mathlib

/-!
# Verification of the `uintarray` packed-word array

Shallow embedding of `src/lib.rs`: a fixed-capacity array of small unsigned
values packed in a single `u128`.  The backing word is modelled as a `ℕ`
(together with the invariant `a < 2 ^ 128` where it matters); Rust `u128`
operations that can drop high bits (`<<`) are modelled with an explicit
`% 2 ^ 128`, bitwise complement `!x` as xor with the all-ones word, and the
panics of the source as `Except` errors using the spec's error taxonomy.
-/

namespace UintArray

/-- Spec error taxonomy; each corresponds to one panic site of the source. -/
inductive UintError
  | NotPowerOfTwo
  | SizeTooLarge
  | InvalidLength
  | CapacityExceeded
  | ValueOutOfRange
deriving DecidableEq

instance : DecidableEq (Except UintError ℕ) := fun x y =>
  match x, y with
  | .error a, .error b =>
    decidable_of_iff (a = b)
      ⟨fun h => by rw [h], fun h => by injection h⟩
  | .error _, .ok _ => .isFalse fun hc => Except.noConfusion hc
  | .ok _, .error _ => .isFalse fun hc => Except.noConfusion hc
  | .ok a, .ok b =>
    decidable_of_iff (a = b)
      ⟨fun h => by rw [h], fun h => by injection h⟩

/-- Rust `u128` left shift `x << n`: keeps the low 128 bits of the result.
(The source only executes shifts whose amount is below 128 on non-panicking
paths; see the shift-amount instrumentation further down.) -/
def shl (x n : ℕ) : ℕ := (x <<< n) % 2 ^ 128

/-- Rust `u128` bitwise complement `!x`. -/
def unot (x : ℕ) : ℕ := (2 ^ 128 - 1) ^^^ x

/-- `SIZE_MASK`: mask for the size part (low 3 bits). -/
def SIZE_MASK : ℕ := 7

/-- `SIZE_BITS`. -/
def SIZE_BITS : ℕ := 3

/-- `LEN_MASK`: mask for the length part (`0b11111 << SIZE_BITS`). -/
def LEN_MASK : ℕ := 31 <<< SIZE_BITS

/-- `LEN_BITS`. -/
def LEN_BITS : ℕ := 5

/-- `META_BITS = SIZE_BITS + LEN_BITS`. -/
def META_BITS : ℕ := SIZE_BITS + LEN_BITS

/-- `UintArray::_mask`: bit mask for a value of `size` bits (`(1 << size) - 1`). -/
def _mask (size : ℕ) : ℕ := (1 <<< size) - 1

/-- `UintArray::_size`: element bit width encoded in the low 3 bits. -/
def _size (data : ℕ) : ℕ := 1 <<< (data &&& SIZE_MASK)

/-- `UintArray::_len`: length field, bits 3..7. -/
def _len (data : ℕ) : ℕ := (data &&& LEN_MASK) >>> SIZE_BITS

/-- `UintArray::_cap`: `(size_of::<u128>() * 8 - META_BITS) / size`. -/
def _cap (size : ℕ) : ℕ := (16 * 8 - META_BITS) / size

/-- `UintArray::_set_len`: `(self.0 & !LEN_MASK) | new_len << SIZE_BITS`. -/
def _set_len (a new_len : ℕ) : ℕ := (a &&& unot LEN_MASK) ||| shl new_len SIZE_BITS

/-- `UintArray::_check_insert_panic`, with its two panics as errors
(capacity first, then value fitness — the source order). -/
def _check_insert (size len item : ℕ) : Except UintError Unit :=
  if len ≥ _cap size then .error .CapacityExceeded
  else if _mask size &&& item ≠ item then .error .ValueOutOfRange
  else .ok ()

/-- `From<u128> for UintArray`: wraps a raw word, panicking (`InvalidLength`)
when the decoded length exceeds the decoded capacity. -/
def from_raw (data : ℕ) : Except UintError ℕ :=
  if _len data > _cap (_size data) then .error .InvalidLength
  else .ok data

/-- `UintArray::new_size`.  The source rejects `size > size_of::<u128>() * 4`
(`SizeTooLarge`), then tests for a power of two by comparing `(size as f32).log2()`
with its integer truncation.  For every argument `size ≤ 64` that float test
accepts exactly the powers of two (and rejects `0`), so it is modelled by the
exact predicate `size = 2 ^ Nat.log2 size`. -/
def new_size (size : ℕ) : Except UintError ℕ :=
  if size > 16 * 4 then .error .SizeTooLarge
  else if size ≠ 2 ^ Nat.log2 size then .error .NotPowerOfTwo
  else .ok (Nat.log2 size)

/-- `UintArray::_at`: read `size` bits at `offset`, disregarding bounds. -/
def _at (a size offset : ℕ) : Option ℕ :=
  some ((shl (_mask size) offset &&& a) >>> offset)

/-- `UintArray::at` (the name `at` is reserved in Lean): `None` out of bounds,
otherwise the element at position `pos`. -/
def at' (a pos : ℕ) : Option ℕ :=
  if pos ≥ _len a then none
  else _at a (_size a) (_size a * pos + META_BITS)

/-- `UintArray::append`. -/
def append (a item : ℕ) : Except UintError ℕ :=
  let len := _len a
  let size := _size a
  match _check_insert size len item with
  | .error e => .error e
  | .ok _ => .ok (_set_len a (len + 1) ||| shl item (len * size + META_BITS))

/-- `UintArray::insert`: `pos` is clamped to `len`, elements at or above the
insertion offset are shifted one slot up, the item is written in between. -/
def insert (a pos item : ℕ) : Except UintError ℕ :=
  let len := _len a
  let size := _size a
  match _check_insert size len item with
  | .error e => .error e
  | .ok _ =>
    let pos' := if pos > len then len else pos
    let offset := pos' * size + META_BITS
    let pos_mask := _mask offset
    .ok ((_set_len a (len + 1) &&& pos_mask) ||| shl (a &&& unot pos_mask) size |||
      shl item offset)

/-- The `for` loop of `UintArray::extend`: consumes the sequence, counting
elements (`iter_len`), tracking the running maximum, packing the items, and
panicking (`CapacityExceeded`) as soon as the count exceeds the capacity. -/
def extendLoop (size cap : ℕ) : List ℕ → ℕ → ℕ → ℕ → Except UintError (ℕ × ℕ × ℕ)
  | [], iter_len, max, items => .ok (iter_len, max, items)
  | i :: rest, iter_len, max, items =>
    let iter_len' := iter_len + 1
    let max' := if i > max then i else max
    if iter_len' > cap then .error .CapacityExceeded
    else extendLoop size cap rest iter_len' max' (items ||| shl i ((iter_len' - 1) * size))

/-- `UintArray::extend` over a finite sequence of `u128` values. -/
def extend (a : ℕ) (iter : List ℕ) : Except UintError ℕ :=
  let len := _len a
  let size := _size a
  let cap := _cap size
  match extendLoop size cap iter 0 0 0 with
  | .error e => .error e
  | .ok (iter_len, max, items) =>
    let new_len := len + iter_len
    match _check_insert size new_len max with
    | .error e => .error e
    | .ok _ => .ok (_set_len a new_len ||| shl items (size * len + META_BITS))

/-- `UintArray::_until` with the `FnMut` closure's captured state made explicit:
`f` maps state and current element to new state, candidate value, stop flag. -/
def _untilLoop {σ : Type} (a size : ℕ) (f : σ → ℕ → σ × ℕ × Bool) :
    ℕ → ℕ → σ → Option ℕ
  | 0, _, _ => none
  | fuel + 1, i, s =>
    let offset := i * size + META_BITS
    let x := (a &&& shl (_mask size) offset) >>> offset
    match f s x with
    | (s', value, stop) =>
      if stop then some value else _untilLoop a size f fuel (i + 1) s'

/-- `UintArray::_until`: iterate over positions `0..len`. -/
def _until {σ : Type} (a len size : ℕ) (f : σ → ℕ → σ × ℕ × Bool) (s : σ) : Option ℕ :=
  _untilLoop a size f len 0 s

/-- `UintArray::_index`: first position holding `item`; the closure's `pos`
counter is the explicit state. -/
def _index (a item len size : ℕ) : Option ℕ :=
  _until a len size (fun pos x => (pos + 1, pos, x == item)) 0

/-- `UintArray::remove`: drop the first occurrence of `item`, unchanged word if
absent. -/
def remove (a item : ℕ) : ℕ :=
  let len := _len a
  let size := _size a
  match _index a item len size with
  | none => a
  | some pos =>
    let offset := pos * size + META_BITS
    let pos_mask := _mask offset
    (_set_len a (len - 1) &&& pos_mask) ||| ((a &&& unot pos_mask) >>> size &&& unot pos_mask)

/-- `UintArray::pop`: element at `pos` (if any) together with the word with
that slot removed. -/
def pop (a pos : ℕ) : ℕ × Option ℕ :=
  let len := _len a
  let size := _size a
  if pos ≥ len then (a, none)
  else
    let offset := pos * size + META_BITS
    let pos_mask := _mask offset
    ((_set_len a (len - 1) &&& pos_mask) |||
       ((a &&& unot pos_mask) >>> size &&& unot pos_mask),
     _at a size offset)

/-- One `next()` of `UintArrayIterator`: increment the index, then read
`at(index - 1)`. -/
def iterNext (a index : ℕ) : ℕ × Option ℕ := (index + 1, at' a (index + 1 - 1))

/-- Full iteration (`produce_sequence`): repeatedly call `iterNext` until it
yields `none`.  `fuel` bounds the recursion; `_len a + 1` calls reach the
terminating `none`, so the collected list is the whole sequence. -/
def iterCollect (a : ℕ) : ℕ → ℕ → List ℕ
  | 0, _ => []
  | fuel + 1, index =>
    match iterNext a index with
    | (_, none) => []
    | (index', some v) => v :: iterCollect a fuel index'

/-- The sequence produced by iterating the array once from a fresh iterator. -/
def produce_sequence (a : ℕ) : List ℕ := iterCollect a (_len a + 1) 0

/-- The deleted-slot word built identically by `pop` and by `remove`
("Same operation as that of self.pop()" in the source). -/
def delWord (a pos : ℕ) : ℕ :=
  let len := _len a
  let size := _size a
  let offset := pos * size + META_BITS
  let pos_mask := _mask offset
  (_set_len a (len - 1) &&& pos_mask) ||| ((a &&& unot pos_mask) >>> size &&& unot pos_mask)

/-- The value `_until` hands to its closure at loop position `i` (the source's
`(self.0 & mask << offset) >> offset`). -/
def scanElem (a size i : ℕ) : ℕ :=
  (a &&& shl (_mask size) (i * size + META_BITS)) >>> (i * size + META_BITS)

/-! ## Shift-amount instrumentation

Rust shifts by an amount `≥ 128` are an arithmetic-overflow panic.  The lists
below transcribe, in execution order, every shift amount each operation
executes on the path it actually takes (stopping where the source panics or
returns), so that shift safety is the statement that every listed amount is
below 128. -/

/-- Shift amounts of `len()` (`>> SIZE_BITS`). -/
def len_shifts : List ℕ := [SIZE_BITS]

/-- Shift amounts of `size()` (`1 << (data & SIZE_MASK)`). -/
def size_shifts (a : ℕ) : List ℕ := [a &&& SIZE_MASK]

/-- Shift amounts of `_check_insert_panic`: `_mask(size)` is computed only
after the capacity test passes. -/
def check_insert_shifts (size len : ℕ) : List ℕ :=
  if len ≥ _cap size then [] else [size]

/-- Shift amounts executed by `at a pos`. -/
def at_shifts (a pos : ℕ) : List ℕ :=
  len_shifts ++
    if pos ≥ _len a then []
    else size_shifts a ++
      [_size a, _size a * pos + META_BITS, _size a * pos + META_BITS]

/-- Shift amounts executed by `insert a pos item`. -/
def insert_shifts (a pos item : ℕ) : List ℕ :=
  len_shifts ++ size_shifts a ++ check_insert_shifts (_size a) (_len a) ++
    match _check_insert (_size a) (_len a) item with
    | .error _ => []
    | .ok _ =>
      [(if pos > _len a then _len a else pos) * _size a + META_BITS, SIZE_BITS,
        _size a, (if pos > _len a then _len a else pos) * _size a + META_BITS]

/-- Shift amounts executed by `pop a pos`. -/
def pop_shifts (a pos : ℕ) : List ℕ :=
  len_shifts ++ size_shifts a ++
    if pos ≥ _len a then []
    else [pos * _size a + META_BITS, SIZE_BITS, _size a, _size a,
      pos * _size a + META_BITS, pos * _size a + META_BITS]

/-- Number of loop iterations `_until` performs inside `_index` (the scan stops
right after the hit, or after `len` misses). -/
def index_scan_len (a item len size : ℕ) : ℕ :=
  match _index a item len size with
  | some pos => pos + 1
  | none => len

/-- Shift amounts executed by `remove a item`: `_mask(size)` before the loop,
two shifts by the slot offset per scanned position, and — only on a hit — the
deletion shifts. -/
def remove_shifts (a item : ℕ) : List ℕ :=
  len_shifts ++ size_shifts a ++ [_size a] ++
    ((List.range (index_scan_len a item (_len a) (_size a))).map
      fun i => [i * _size a + META_BITS, i * _size a + META_BITS]).flatten ++
    match _index a item (_len a) (_size a) with
    | none => []
    | some pos => [pos * _size a + META_BITS, SIZE_BITS, _size a]

/-- Shift amounts of the `extend` loop: one packing shift per consumed element,
executed only after the in-loop capacity test passes. -/
def extendLoop_shifts (size cap : ℕ) : List ℕ → ℕ → List ℕ
  | [], _ => []
  | _ :: rest, iter_len =>
    if iter_len + 1 > cap then []
    else (iter_len + 1 - 1) * size :: extendLoop_shifts size cap rest (iter_len + 1)

/-- Shift amounts executed by `extend a iter`. -/
def extend_shifts (a : ℕ) (iter : List ℕ) : List ℕ :=
  len_shifts ++ size_shifts a ++
    extendLoop_shifts (_size a) (_cap (_size a)) iter 0 ++
    match extendLoop (_size a) (_cap (_size a)) iter 0 0 0 with
    | .error _ => []
    | .ok (iter_len, max, _) =>
      check_insert_shifts (_size a) (_len a + iter_len) ++
        match _check_insert (_size a) (_len a + iter_len) max with
        | .error _ => []
        | .ok _ => [SIZE_BITS, _size a * _len a + META_BITS]

-- Sanity checks against the repository's own test suite (`tests/test.rs`).
example : _size 69420 = 16 := by decide
example : _cap (_size 69420) = 7 := by decide
example : _len 524314 = 3 := by decide
example : at' 524314 2 = some 8 := by decide
example : at' 524314 3 = none := by decide
example : append 524314 4 = .ok 4718626 := rfl
example : insert 524314 2 4 = .ok 8650786 := rfl
example : extend 524314 [1, 2, 3, 4] = .ok 18020302906 := rfl
example : remove 524314 2 = 524314 := by decide
example : remove 524314 0 = 32786 := by decide
example : pop 524314 1 = (32786, some 0) := by decide
example : pop 32786 2 = (32786, none) := by decide
example : _index 524314 8 (_len 524314) (_size 524314) = some 2 := by decide
example : _index 524314 2 (_len 524314) (_size 524314) = none := by decide
example : from_raw 69420 = .ok 69420 := rfl
example : from_raw 69421 = .error .InvalidLength := rfl
example : new_size 4 = .ok 2 := by
  have h : Nat.log2 4 = 2 := by rw [show (4 : ℕ) = 2 ^ 2 by norm_num, Nat.log2_two_pow]
  simp [new_size, h]
example : new_size 128 = .error .SizeTooLarge := by simp [new_size]
example : new_size 15 = .error .NotPowerOfTwo := by
  have h : Nat.log2 15 = 3 := by
    have h1 : Nat.log2 15 = Nat.log2 7 + 1 := by rw [Nat.log2]; norm_num
    have h2 : Nat.log2 7 = Nat.log2 3 + 1 := by rw [Nat.log2]; norm_num
    have h3 : Nat.log2 3 = Nat.log2 1 + 1 := by rw [Nat.log2]; norm_num
    have h4 : Nat.log2 1 = 0 := by rw [Nat.log2]; norm_num
    omega
  simp [new_size, h]
example : produce_sequence 4399394 = [1, 2, 3, 4] := by decide

/-! ## Bit-level toolkit -/

theorem mask_eq (n : ℕ) : _mask n = 2 ^ n - 1 := by
  simp [_mask, Nat.shiftLeft_eq]

theorem testBit_mask (n i : ℕ) : (_mask n).testBit i = decide (i < n) := by
  rw [mask_eq]; exact Nat.testBit_two_pow_sub_one n i

theorem mask_lt {n : ℕ} (h : n ≤ 128) : _mask n < 2 ^ 128 := by
  rw [mask_eq]
  have h1 : (2 : ℕ) ^ n ≤ 2 ^ 128 := Nat.pow_le_pow_right (by norm_num) h
  have h2 : (0 : ℕ) < 2 ^ n := Nat.pos_pow_of_pos n (by norm_num)
  omega

theorem testBit_shl (x n i : ℕ) :
    (shl x n).testBit i = (decide (i < 128) && (decide (i ≥ n) && x.testBit (i - n))) := by
  rw [shl, Nat.testBit_mod_two_pow, Nat.testBit_shiftLeft]

theorem testBit_high {x : ℕ} (h : x < 2 ^ 128) {i : ℕ} (hi : 128 ≤ i) :
    x.testBit i = false :=
  Nat.testBit_lt_two_pow (lt_of_lt_of_le h (Nat.pow_le_pow_right (by norm_num) hi))

theorem testBit_unot {x : ℕ} (h : x < 2 ^ 128) (i : ℕ) :
    (unot x).testBit i = (decide (i < 128) && ! x.testBit i) := by
  rw [unot, Nat.testBit_xor, Nat.testBit_two_pow_sub_one]
  rcases Nat.lt_or_ge i 128 with hi | hi
  · simp [hi]
  · simp [testBit_high h hi, (by omega : ¬ i < 128)]

theorem and_shiftLeft_shiftRight (a m k : ℕ) : (a &&& m <<< k) >>> k = (a >>> k) &&& m := by
  apply Nat.eq_of_testBit_eq
  intro i
  rw [Nat.testBit_shiftRight, Nat.testBit_and, Nat.testBit_and, Nat.testBit_shiftRight,
    Nat.testBit_shiftLeft]
  simp [Nat.le_add_right, Nat.add_sub_cancel_left]

theorem len_eq (a : ℕ) : _len a = (a >>> 3) &&& 31 := by
  have h : LEN_MASK = 31 <<< 3 := rfl
  have h3 : SIZE_BITS = 3 := rfl
  rw [_len, h, h3]
  exact and_shiftLeft_shiftRight a 31 3

theorem len_lt (a : ℕ) : _len a < 32 := by
  rw [len_eq]
  have h : (a >>> 3) &&& 31 ≤ 31 := Nat.and_le_right
  omega

theorem testBit_len (a k : ℕ) : (_len a).testBit k = (decide (k < 5) && a.testBit (3 + k)) := by
  rw [len_eq, Nat.testBit_and, Nat.testBit_shiftRight,
    show (31 : ℕ) = 2 ^ 5 - 1 by norm_num, Nat.testBit_two_pow_sub_one, Bool.and_comm]

theorem size_eq (a : ℕ) : _size a = 2 ^ (a &&& 7) := by
  simp [_size, SIZE_MASK, Nat.shiftLeft_eq]

theorem size_pos (a : ℕ) : 0 < _size a := by
  rw [size_eq]; positivity

theorem cap_eq (s : ℕ) : _cap s = 120 / s := by
  norm_num [_cap, META_BITS, SIZE_BITS, LEN_BITS]

theorem le_cap_mul {a : ℕ} (h : _len a ≤ _cap (_size a)) : _len a * _size a ≤ 120 := by
  rw [cap_eq] at h
  exact (Nat.le_div_iff_mul_le (size_pos a)).mp h

theorem lt_cap_mul {l a : ℕ} (h : l < _cap (_size a)) : (l + 1) * _size a ≤ 120 := by
  rw [cap_eq] at h
  exact (Nat.le_div_iff_mul_le (size_pos a)).mp h

theorem fits_iff {s item : ℕ} : _mask s &&& item = item ↔ item < 2 ^ s := by
  rw [mask_eq, Nat.and_comm, Nat.and_pow_two_sub_one_eq_mod]
  constructor
  · intro h
    have hlt : item % 2 ^ s < 2 ^ s := Nat.mod_lt _ (Nat.pos_pow_of_pos s (by norm_num))
    omega
  · exact Nat.mod_eq_of_lt

theorem extract_eq {a : ℕ} (h : a < 2 ^ 128) (m off : ℕ) :
    (shl m off &&& a) >>> off = (a >>> off) &&& m := by
  apply Nat.eq_of_testBit_eq
  intro i
  rw [Nat.testBit_shiftRight, Nat.testBit_and, Nat.testBit_and, Nat.testBit_shiftRight,
    testBit_shl]
  rcases Nat.lt_or_ge (off + i) 128 with hi | hi
  · simp [hi, Nat.le_add_right, Nat.add_sub_cancel_left, Bool.and_comm]
  · simp [testBit_high h hi]

theorem testBit_LEN_MASK (i : ℕ) :
    LEN_MASK.testBit i = (decide (3 ≤ i) && decide (i < 8)) := by
  have h : LEN_MASK = 31 <<< 3 := rfl
  rw [h, Nat.testBit_shiftLeft, show (31 : ℕ) = 2 ^ 5 - 1 by norm_num,
    Nat.testBit_two_pow_sub_one]
  simp only [ge_iff_le]
  rcases Nat.lt_or_ge i 3 with h3 | h3
  · rw [decide_eq_false (by omega : ¬ 3 ≤ i)]
    simp
  · rw [decide_eq_true h3]
    rcases Nat.lt_or_ge i 8 with h8 | h8
    · rw [decide_eq_true (by omega : i - 3 < 5), decide_eq_true h8]
    · rw [decide_eq_false (by omega : ¬ i - 3 < 5), decide_eq_false (by omega : ¬ i < 8)]

theorem LEN_MASK_lt : LEN_MASK < 2 ^ 128 := by
  have h : LEN_MASK = 248 := rfl
  rw [h]
  norm_num

theorem testBit_set_len_mid {a n i : ℕ} (h3 : 3 ≤ i) (h8 : i < 8) :
    (_set_len a n).testBit i = n.testBit (i - 3) := by
  have hsb : SIZE_BITS = 3 := rfl
  rw [_set_len, hsb, Nat.testBit_or, Nat.testBit_and, testBit_unot LEN_MASK_lt,
    testBit_LEN_MASK, testBit_shl]
  simp only [ge_iff_le]
  rw [decide_eq_true (by omega : i < 128), decide_eq_true h3, decide_eq_true h8]
  simp

theorem testBit_set_len_low {a n i : ℕ} (h128 : a < 2 ^ 128) (hn : n < 32)
    (hi : i < 3 ∨ 8 ≤ i) : (_set_len a n).testBit i = a.testBit i := by
  have hsb : SIZE_BITS = 3 := rfl
  rw [_set_len, hsb, Nat.testBit_or, Nat.testBit_and, testBit_unot LEN_MASK_lt,
    testBit_LEN_MASK, testBit_shl]
  simp only [ge_iff_le]
  rcases Nat.lt_or_ge i 128 with h1 | h1
  · rcases hi with hi | hi
    · rw [decide_eq_true h1, decide_eq_false (by omega : ¬ 3 ≤ i)]
      simp
    · have hbit : n.testBit (i - 3) = false := by
        apply Nat.testBit_lt_two_pow
        calc n < 32 := hn
          _ = 2 ^ 5 := by norm_num
          _ ≤ 2 ^ (i - 3) := Nat.pow_le_pow_right (by norm_num) (by omega)
      rw [decide_eq_true h1, decide_eq_true (by omega : 3 ≤ i),
        decide_eq_false (by omega : ¬ i < 8), hbit]
      simp
  · rw [decide_eq_false (by omega : ¬ i < 128), testBit_high h128 h1]
    simp

theorem at_spec {a : ℕ} (h128 : a < 2 ^ 128) {pos : ℕ} (hpos : pos < _len a) :
    at' a pos = some ((a >>> (_size a * pos + META_BITS)) &&& _mask (_size a)) := by
  rw [at', if_neg (by omega : ¬ pos ≥ _len a), _at, extract_eq h128]

theorem testBit_field (a u s j : ℕ) :
    ((a >>> u) &&& _mask s).testBit j = (a.testBit (u + j) && decide (j < s)) := by
  rw [Nat.testBit_and, Nat.testBit_shiftRight, testBit_mask]

theorem testBit_of_len {a k : ℕ} (hk : k < 5) : a.testBit (3 + k) = (_len a).testBit k := by
  rw [testBit_len, decide_eq_true hk, Bool.true_and]

theorem size_congr {t a : ℕ} (h : ∀ i, i < 3 → t.testBit i = a.testBit i) :
    _size t = _size a := by
  rw [size_eq, size_eq]
  congr 1
  apply Nat.eq_of_testBit_eq
  intro i
  rw [Nat.testBit_and, Nat.testBit_and, show (7 : ℕ) = 2 ^ 3 - 1 by norm_num,
    Nat.testBit_two_pow_sub_one]
  rcases Nat.lt_or_ge i 3 with hi | hi
  · rw [h i hi]
  · rw [decide_eq_false (by omega : ¬ i < 3)]
    simp

theorem len_eq_of_bits {t n : ℕ} (hn : n < 32)
    (h : ∀ k, k < 5 → t.testBit (3 + k) = n.testBit k) : _len t = n := by
  apply Nat.eq_of_testBit_eq
  intro k
  rw [testBit_len]
  rcases Nat.lt_or_ge k 5 with hk | hk
  · rw [decide_eq_true hk, Bool.true_and, h k hk]
  · have hb : n.testBit k = false := by
      apply Nat.testBit_lt_two_pow
      calc n < 32 := hn
        _ = 2 ^ 5 := by norm_num
        _ ≤ 2 ^ k := Nat.pow_le_pow_right (by norm_num) hk
    rw [decide_eq_false (by omega : ¬ k < 5), hb]
    simp

theorem pop_eq_delWord {a pos : ℕ} (h : pos < _len a) :
    pop a pos = (delWord a pos, _at a (_size a) (pos * _size a + META_BITS)) := by
  rw [pop, delWord]
  simp only []
  rw [if_neg (by omega : ¬ pos ≥ _len a)]

theorem testBit_delWord {a pos : ℕ} (h128 : a < 2 ^ 128)
    (hcap : _len a ≤ _cap (_size a)) (hpos : pos < _len a) (i : ℕ) :
    (delWord a pos).testBit i =
      if i < 3 then a.testBit i
      else if i < 8 then (_len a - 1).testBit (i - 3)
      else if i < pos * _size a + 8 then a.testBit i
      else if i < 128 then a.testBit (_size a + i)
      else false := by
  have hsz := size_pos a
  have hlen := len_lt a
  have hmul : (pos + 1) * _size a ≤ 120 :=
    le_trans (Nat.mul_le_mul_right _ hpos) (le_cap_mul hcap)
  have hmul' : pos * _size a + _size a ≤ 120 := by
    have h1 : (pos + 1) * _size a = pos * _size a + _size a := by ring
    omega
  have hoff : pos * _size a + 8 ≤ 127 := by omega
  have hm8 : META_BITS = 8 := rfl
  have hN : ∀ j, (unot (_mask (pos * _size a + 8))).testBit j =
      (decide (j < 128) && ! decide (j < pos * _size a + 8)) := by
    intro j
    rw [testBit_unot (mask_lt (by omega)), testBit_mask]
  simp only [delWord, hm8, Nat.testBit_or, Nat.testBit_and, Nat.testBit_shiftRight,
    testBit_mask, hN]
  rcases Nat.lt_or_ge i 3 with hc | hc
  · rw [if_pos hc, testBit_set_len_low h128 (by omega) (Or.inl hc),
      decide_eq_true (by omega : i < pos * _size a + 8)]
    simp
  · rcases Nat.lt_or_ge i 8 with hc8 | hc8
    · rw [if_neg (by omega), if_pos hc8, testBit_set_len_mid hc hc8,
        decide_eq_true (by omega : i < pos * _size a + 8)]
      simp
    · rcases Nat.lt_or_ge i (pos * _size a + 8) with hcoff | hcoff
      · rw [if_neg (by omega), if_neg (by omega), if_pos hcoff,
          testBit_set_len_low h128 (by omega) (Or.inr hc8),
          decide_eq_true (by omega : i < pos * _size a + 8)]
        simp
      · rcases Nat.lt_or_ge i 128 with hc128 | hc128
        · rw [if_neg (by omega), if_neg (by omega), if_neg (by omega), if_pos hc128,
            decide_eq_false (by omega : ¬ i < pos * _size a + 8),
            decide_eq_true hc128,
            decide_eq_false (by omega : ¬ _size a + i < pos * _size a + 8)]
          rcases Nat.lt_or_ge (_size a + i) 128 with hs128 | hs128
          · rw [decide_eq_true hs128]
            simp
          · rw [decide_eq_false (by omega : ¬ _size a + i < 128),
              testBit_high h128 hs128]
            simp
        · rw [if_neg (by omega), if_neg (by omega), if_neg (by omega),
            if_neg (by omega),
            decide_eq_false (by omega : ¬ i < pos * _size a + 8),
            decide_eq_false (by omega : ¬ i < 128)]
          simp

theorem size_delWord {a pos : ℕ} (h128 : a < 2 ^ 128)
    (hcap : _len a ≤ _cap (_size a)) (hpos : pos < _len a) :
    _size (delWord a pos) = _size a :=
  size_congr fun i hi => by
    rw [testBit_delWord h128 hcap hpos, if_pos hi]

theorem len_delWord {a pos : ℕ} (h128 : a < 2 ^ 128)
    (hcap : _len a ≤ _cap (_size a)) (hpos : pos < _len a) :
    _len (delWord a pos) = _len a - 1 := by
  apply len_eq_of_bits (by have := len_lt a; omega)
  intro k hk
  rw [testBit_delWord h128 hcap hpos, if_neg (by omega), if_pos (by omega)]
  congr 1
  omega

theorem delWord_lt {a pos : ℕ} (h128 : a < 2 ^ 128)
    (hcap : _len a ≤ _cap (_size a)) (hpos : pos < _len a) :
    delWord a pos < 2 ^ 128 := by
  have hsz := size_pos a
  have hmul : (pos + 1) * _size a ≤ 120 :=
    le_trans (Nat.mul_le_mul_right _ hpos) (le_cap_mul hcap)
  have hmul' : pos * _size a + _size a ≤ 120 := by
    have h1 : (pos + 1) * _size a = pos * _size a + _size a := by ring
    omega
  apply Nat.lt_pow_two_of_testBit
  intro i hi
  rw [testBit_delWord h128 hcap hpos, if_neg (by omega), if_neg (by omega),
    if_neg (by omega), if_neg (by omega)]

theorem at_delWord_lt {a pos i : ℕ} (h128 : a < 2 ^ 128)
    (hcap : _len a ≤ _cap (_size a)) (hpos : pos < _len a) (hi : i < pos) :
    at' (delWord a pos) i = at' a i := by
  have hsz := size_pos a
  have hts := size_delWord h128 hcap hpos
  have htl := len_delWord h128 hcap hpos
  have ht128 := delWord_lt h128 hcap hpos
  rw [at_spec ht128 (by omega : i < _len (delWord a pos)), at_spec h128 (by omega), hts]
  congr 1
  apply Nat.eq_of_testBit_eq
  intro j
  rw [testBit_field, testBit_field]
  have hm8 : META_BITS = 8 := rfl
  rw [hm8]
  rcases Nat.lt_or_ge j (_size a) with hj | hj
  · have hmul1 : _size a * (i + 1) ≤ _size a * pos := Nat.mul_le_mul_left _ hi
    have hmul2 : _size a * (i + 1) = _size a * i + _size a := by ring
    have hmc : _size a * pos = pos * _size a := by ring
    rw [testBit_delWord h128 hcap hpos, if_neg (by omega), if_neg (by omega),
      if_pos (by omega)]
  · rw [decide_eq_false (by omega : ¬ j < _size a)]
    simp

theorem at_delWord_ge {a pos i : ℕ} (h128 : a < 2 ^ 128)
    (hcap : _len a ≤ _cap (_size a)) (hpos : pos < _len a) (hge : pos ≤ i)
    (hlt : i + 1 < _len a) :
    at' (delWord a pos) i = at' a (i + 1) := by
  have hsz := size_pos a
  have hts := size_delWord h128 hcap hpos
  have htl := len_delWord h128 hcap hpos
  have ht128 := delWord_lt h128 hcap hpos
  rw [at_spec ht128 (by omega : i < _len (delWord a pos)), at_spec h128 (by omega), hts]
  congr 1
  apply Nat.eq_of_testBit_eq
  intro j
  rw [testBit_field, testBit_field]
  have hm8 : META_BITS = 8 := rfl
  rw [hm8]
  rcases Nat.lt_or_ge j (_size a) with hj | hj
  · have hmul1 : _size a * (i + 2) ≤ _size a * _len a := Nat.mul_le_mul_left _ (by omega)
    have hmul2 : _size a * (i + 2) = _size a * i + _size a + _size a := by ring
    have hmul3 : _size a * (i + 1) = _size a * i + _size a := by ring
    have hmc : _size a * _len a = _len a * _size a := by ring
    have hcm := le_cap_mul hcap
    have hmulp : _size a * pos = pos * _size a := by ring
    have hmulip : _size a * pos ≤ _size a * i := Nat.mul_le_mul_left _ hge
    rw [testBit_delWord h128 hcap hpos, if_neg (by omega), if_neg (by omega),
      if_neg (by omega), if_pos (by omega),
      show _size a + (_size a * i + 8 + j) = _size a * (i + 1) + 8 + j by omega]
  · rw [decide_eq_false (by omega : ¬ j < _size a)]
    simp

theorem untilLoop_step (a size : ℕ) (f : ℕ → ℕ → ℕ × ℕ × Bool) (n i s : ℕ) :
    _untilLoop a size f (n + 1) i s =
      (match f s (scanElem a size i) with
       | (s', value, stop) => if stop then some value else _untilLoop a size f n (i + 1) s') :=
  rfl

theorem untilLoop_none {a size item : ℕ} :
    ∀ fuel i, (∀ j, i ≤ j → j < i + fuel → scanElem a size j ≠ item) →
      _untilLoop a size (fun pos x => (pos + 1, pos, x == item)) fuel i i = none := by
  intro fuel
  induction fuel with
  | zero => intro i _; rfl
  | succ n ih =>
    intro i h
    rw [untilLoop_step]
    have hx : (scanElem a size i == item) = false := by
      rw [beq_eq_false_iff_ne]
      exact h i (Nat.le_refl i) (by omega)
    simp only [hx, Bool.false_eq_true, if_false]
    exact ih (i + 1) fun j h1 h2 => h j (by omega) (by omega)

theorem untilLoop_some {a size item : ℕ} :
    ∀ fuel i p, i ≤ p → p < i + fuel → scanElem a size p = item →
      (∀ j, i ≤ j → j < p → scanElem a size j ≠ item) →
      _untilLoop a size (fun pos x => (pos + 1, pos, x == item)) fuel i i = some p := by
  intro fuel
  induction fuel with
  | zero => intro i p h1 h2 _ _; omega
  | succ n ih =>
    intro i p h1 h2 he hfirst
    rw [untilLoop_step]
    rcases Nat.eq_or_lt_of_le h1 with rfl | hlt
    · have hx : (scanElem a size i == item) = true := beq_iff_eq.mpr he
      simp only [hx, if_true]
    · have hx : (scanElem a size i == item) = false := by
        rw [beq_eq_false_iff_ne]
        exact hfirst i (Nat.le_refl i) hlt
      simp only [hx, Bool.false_eq_true, if_false]
      exact ih (i + 1) p (by omega) (by omega) he fun j ha hb => hfirst j (by omega) hb

theorem untilLoop_some_bound {a size item : ℕ} :
    ∀ fuel i p, _untilLoop a size (fun pos x => (pos + 1, pos, x == item)) fuel i i = some p →
      i ≤ p ∧ p < i + fuel := by
  intro fuel
  induction fuel with
  | zero => intro i p h; exact absurd h (by simp [_untilLoop])
  | succ n ih =>
    intro i p h
    rw [untilLoop_step] at h
    rcases hx : (scanElem a size i == item) with _ | _
    · simp only [hx, Bool.false_eq_true, if_false] at h
      have := ih (i + 1) p h
      omega
    · simp only [hx, if_true, Option.some_inj] at h
      omega

theorem index_none {a item len size : ℕ}
    (h : ∀ j, j < len → scanElem a size j ≠ item) : _index a item len size = none := by
  rw [_index, _until]
  exact untilLoop_none len 0 fun j _ h2 => h j (by omega)

theorem index_some {a item len size p : ℕ} (hp : p < len) (he : scanElem a size p = item)
    (hfirst : ∀ j, j < p → scanElem a size j ≠ item) : _index a item len size = some p := by
  rw [_index, _until]
  exact untilLoop_some len 0 p (Nat.zero_le p) (by omega) he fun j _ hb => hfirst j hb

theorem index_lt_len {a item len size p : ℕ} (h : _index a item len size = some p) :
    p < len := by
  rw [_index, _until] at h
  have := untilLoop_some_bound len 0 p h
  omega

theorem remove_eq_of_index_some {a item pos : ℕ}
    (h : _index a item (_len a) (_size a) = some pos) : remove a item = delWord a pos := by
  simp only [remove, h]
  rfl

theorem remove_eq_of_index_none {a item : ℕ}
    (h : _index a item (_len a) (_size a) = none) : remove a item = a := by
  simp only [remove, h]

theorem scanElem_eq {a : ℕ} (h128 : a < 2 ^ 128) (i : ℕ) :
    scanElem a (_size a) i = (a >>> (i * _size a + META_BITS)) &&& _mask (_size a) := by
  rw [scanElem, Nat.and_comm, extract_eq h128]

theorem at_eq_scanElem {a i : ℕ} (h128 : a < 2 ^ 128) (hi : i < _len a) :
    at' a i = some (scanElem a (_size a) i) := by
  rw [at_spec h128 hi, scanElem_eq h128, Nat.mul_comm]

/-- C8: `pop(pos)` with `pos ≥ length` returns the unchanged word and `None`;
with `pos < length` it returns `Some` of the element stored at `pos` together
with a word in which every element below `pos` is unchanged, every element above
`pos` has moved down one slot, and the length field is one less. -/
theorem pop_spec (a pos : ℕ) (h128 : a < 2 ^ 128) (hval : _len a ≤ _cap (_size a)) :
    (pos ≥ _len a → pop a pos = (a, none)) ∧
    (pos < _len a →
      (pop a pos).2 = at' a pos ∧
      _len (pop a pos).1 = _len a - 1 ∧
      (∀ i, i < pos → at' (pop a pos).1 i = at' a i) ∧
      (∀ i, pos ≤ i → i < _len a - 1 → at' (pop a pos).1 i = at' a (i + 1))) := by
  constructor
  · intro h
    simp only [pop]
    rw [if_pos h]
  · intro h
    rw [pop_eq_delWord h]
    refine ⟨?_, len_delWord h128 hval h, fun i hi => at_delWord_lt h128 hval h hi,
      fun i h1 h2 => at_delWord_ge h128 hval h h1 (by omega)⟩
    show _at a (_size a) (pos * _size a + META_BITS) = at' a pos
    rw [at', if_neg (by omega : ¬ pos ≥ _len a), Nat.mul_comm]

/-- Witness for `pop_spec` at the repository's own test vector
`524314 = [0, 0, 8]` (width 4): `pop(1)` gives `(32786, Some 0)` and the shifted
elements line up; `pop` beyond the length leaves the word unchanged. -/
theorem pop_spec_witness :
    524314 < 2 ^ 128 ∧ _len 524314 ≤ _cap (_size 524314) ∧ (1 : ℕ) < _len 524314 ∧
    (pop 524314 1).2 = at' 524314 1 ∧
    _len (pop 524314 1).1 = _len 524314 - 1 ∧
    at' (pop 524314 1).1 0 = at' 524314 0 ∧
    at' (pop 524314 1).1 1 = at' 524314 2 ∧
    pop 524314 5 = (524314, none) := by
  have h := pop_spec 524314 1 (by norm_num) (by decide)
  have h5 := pop_spec 524314 5 (by norm_num) (by decide)
  refine ⟨by norm_num, by decide, by decide, (h.2 (by decide)).1, (h.2 (by decide)).2.1,
    (h.2 (by decide)).2.2.1 0 (by decide), (h.2 (by decide)).2.2.2 1 (by decide) (by decide),
    h5.1 (by decide)⟩

/-- C7: `remove(value)` removes the slot of the first occurrence of `value`
(ascending scan), shifting later elements one slot down and decrementing the
length; when `value` is absent the word is returned unchanged. -/
theorem remove_spec (a item : ℕ) (h128 : a < 2 ^ 128) (hval : _len a ≤ _cap (_size a)) :
    ((∀ i, i < _len a → at' a i ≠ some item) → remove a item = a) ∧
    (∀ pos, pos < _len a → at' a pos = some item →
      (∀ j, j < pos → at' a j ≠ some item) →
      _len (remove a item) = _len a - 1 ∧
      (∀ i, i < pos → at' (remove a item) i = at' a i) ∧
      (∀ i, pos ≤ i → i < _len a - 1 → at' (remove a item) i = at' a (i + 1))) := by
  constructor
  · intro h
    apply remove_eq_of_index_none
    apply index_none
    intro j hj hcontra
    exact h j hj (by rw [at_eq_scanElem h128 hj, hcontra])
  · intro pos hpos hat hfirst
    have hsome : _index a item (_len a) (_size a) = some pos := by
      apply index_some hpos
      · have hs := at_eq_scanElem h128 hpos
        rw [hat] at hs
        exact (Option.some_inj.mp hs).symm
      · intro j hj hcontra
        exact hfirst j hj (by rw [at_eq_scanElem h128 (by omega), hcontra])
    rw [remove_eq_of_index_some hsome]
    exact ⟨len_delWord h128 hval hpos, fun i hi => at_delWord_lt h128 hval hpos hi,
      fun i h1 h2 => at_delWord_ge h128 hval hpos h1 (by omega)⟩

/-- Witness for `remove_spec` on `524314 = [0, 0, 8]`: removing absent `2`
changes nothing, removing `0` deletes position 0 and shifts `[0, 8]` down. -/
theorem remove_spec_witness :
    524314 < 2 ^ 128 ∧ _len 524314 ≤ _cap (_size 524314) ∧
    remove 524314 2 = 524314 ∧
    _len (remove 524314 0) = _len 524314 - 1 ∧
    at' (remove 524314 0) 0 = at' 524314 1 ∧
    at' (remove 524314 0) 1 = at' 524314 2 := by
  have habs := (remove_spec 524314 2 (by norm_num) (by decide)).1 (by decide)
  have h0 := (remove_spec 524314 0 (by norm_num) (by decide)).2 0 (by decide) (by decide)
    (by omega)
  refine ⟨by norm_num, by decide, habs, h0.1, h0.2.2 0 (by decide) (by decide),
    h0.2.2 1 (by decide) (by decide)⟩

/-- C4: popping position `pos` and re-inserting the returned value at the same
position restores the original word bit for bit. -/
theorem pop_insert_roundtrip (a pos b v : ℕ) (h128 : a < 2 ^ 128)
    (hval : _len a ≤ _cap (_size a)) (hpop : pop a pos = (b, some v)) :
    insert b pos v = Except.ok a := by
  rcases Nat.lt_or_ge pos (_len a) with hpos | hpos
  case inr =>
    exfalso
    simp only [pop] at hpop
    rw [if_pos hpos] at hpop
    exact Option.noConfusion (congrArg Prod.snd hpop)
  rw [pop_eq_delWord hpos] at hpop
  have hb := congrArg Prod.fst hpop
  have hv := congrArg Prod.snd hpop
  simp only [] at hb hv
  subst hb
  have hm8 : META_BITS = 8 := rfl
  rw [hm8] at hv
  have hv' : v = (a >>> (pos * _size a + 8)) &&& _mask (_size a) := by
    rw [_at, extract_eq h128] at hv
    exact (Option.some_inj.mp hv).symm
  have hs1 := size_pos a
  have hl32 := len_lt a
  have hmul : (pos + 1) * _size a ≤ 120 :=
    le_trans (Nat.mul_le_mul_right _ hpos) (le_cap_mul hval)
  have hoffs : pos * _size a + _size a ≤ 120 := by
    have h1 : (pos + 1) * _size a = pos * _size a + _size a := by ring
    omega
  have hoff127 : pos * _size a + 8 ≤ 127 := by omega
  have hfit : _mask (_size a) &&& v = v := by
    rw [hv', Nat.and_comm (_mask (_size a)), Nat.and_assoc, Nat.and_self]
  have hts := size_delWord h128 hval hpos
  have htl := len_delWord h128 hval hpos
  have ht128 := delWord_lt h128 hval hpos
  have hchk : _check_insert (_size a) (_len a - 1) v = .ok () := by
    rw [_check_insert, if_neg (by omega : ¬ _len a - 1 ≥ _cap (_size a)),
      if_neg (show ¬ _mask (_size a) &&& v ≠ v from fun hc => hc hfit)]
  simp only [insert, hts, htl, hm8, hchk]
  rw [if_neg (by omega : ¬ pos > _len a - 1),
    show _len a - 1 + 1 = _len a by omega, Except.ok.injEq]
  have hN : ∀ j, (unot (_mask (pos * _size a + 8))).testBit j =
      (decide (j < 128) && ! decide (j < pos * _size a + 8)) := fun j => by
    rw [testBit_unot (mask_lt (by omega)), testBit_mask]
  have hvbit : ∀ j, v.testBit j =
      (a.testBit (pos * _size a + 8 + j) && decide (j < _size a)) := fun j => by
    rw [hv', testBit_field]
  have hA : ∀ i, i < 3 ∨ 8 ≤ i →
      (_set_len (delWord a pos) (_len a)).testBit i = (delWord a pos).testBit i :=
    fun i hi => testBit_set_len_low ht128 hl32 hi
  apply Nat.eq_of_testBit_eq
  intro i
  simp only [Nat.testBit_or, Nat.testBit_and, testBit_mask, testBit_shl, hN, hvbit]
  simp only [ge_iff_le]
  rcases Nat.lt_or_ge i (pos * _size a + 8) with hr1 | hr1
  · -- below the insertion offset: only the first component contributes
    have h2f : (! decide (i - _size a < pos * _size a + 8)) = false := by
      rw [decide_eq_true (by omega : i - _size a < pos * _size a + 8)]
      simp
    have h3f : decide (pos * _size a + 8 ≤ i) = false :=
      decide_eq_false (by omega)
    rw [decide_eq_true hr1, h2f, h3f]
    rcases Nat.lt_or_ge i 3 with hc | hc
    · rw [hA i (Or.inl hc), testBit_delWord h128 hval hpos, if_pos hc]
      simp
    · rcases Nat.lt_or_ge i 8 with hc8 | hc8
      · rw [testBit_set_len_mid hc hc8, ← testBit_of_len (by omega : i - 3 < 5),
          show 3 + (i - 3) = i by omega]
        simp
      · rw [hA i (Or.inr hc8), testBit_delWord h128 hval hpos, if_neg (by omega),
          if_neg (by omega), if_pos hr1]
        simp
  · rcases Nat.lt_or_ge i (pos * _size a + 8 + _size a) with hr2 | hr2
    · -- the freshly written slot: only the re-inserted value contributes
      have h1f : decide (i < pos * _size a + 8) = false := decide_eq_false (by omega)
      have h2f : (decide (_size a ≤ i) &&
          ((delWord a pos).testBit (i - _size a) &&
            (decide (i - _size a < 128) && ! decide (i - _size a < pos * _size a + 8)))) =
          false := by
        rcases Nat.lt_or_ge i (_size a) with hc | hc
        · rw [decide_eq_false (by omega : ¬ _size a ≤ i)]
          simp
        · rw [decide_eq_true (by omega : i - _size a < pos * _size a + 8)]
          simp
      rw [decide_eq_true (by omega : pos * _size a + 8 ≤ i), decide_eq_true
        (by omega : i < 128), h1f, h2f,
        show pos * _size a + 8 + (i - (pos * _size a + 8)) = i by omega,
        decide_eq_true (by omega : i - (pos * _size a + 8) < _size a)]
      simp
    · rcases Nat.lt_or_ge i 128 with hc128 | hc128
      · -- above the slot: the shifted-up data contributes the original bits
        have h1f : decide (i < pos * _size a + 8) = false := decide_eq_false (by omega)
        have h3f : decide (i - (pos * _size a + 8) < _size a) = false :=
          decide_eq_false (by omega)
        rw [h1f, h3f, decide_eq_true hc128, decide_eq_true (by omega : _size a ≤ i),
          decide_eq_true (by omega : i - _size a < 128),
          decide_eq_false (by omega : ¬ i - _size a < pos * _size a + 8),
          testBit_delWord h128 hval hpos, if_neg (by omega), if_neg (by omega),
          if_neg (by omega), if_pos (by omega : i - _size a < 128),
          show _size a + (i - _size a) = i by omega]
        simp
      · -- beyond the word width: everything is zero
        rw [decide_eq_false (by omega : ¬ i < pos * _size a + 8),
          decide_eq_false (by omega : ¬ i < 128), testBit_high h128 hc128]
        simp

/-- Witness for `pop_insert_roundtrip` on the test vector `524314 = [0, 0, 8]`:
`pop(1) = (32786, Some 0)` and `insert(1, 0)` on the result rebuilds `524314`. -/
theorem pop_insert_roundtrip_witness :
    524314 < 2 ^ 128 ∧ _len 524314 ≤ _cap (_size 524314) ∧
    pop 524314 1 = (32786, some 0) ∧
    insert 32786 1 0 = Except.ok 524314 :=
  ⟨by norm_num, by decide, by decide,
    pop_insert_roundtrip 524314 1 32786 0 (by norm_num) (by decide) (by decide)⟩

theorem shl_lt (x n : ℕ) : shl x n < 2 ^ 128 :=
  Nat.mod_lt _ (by positivity)

theorem unot_lt {x : ℕ} (h : x < 2 ^ 128) : unot x < 2 ^ 128 :=
  Nat.xor_lt_two_pow (by norm_num) h

theorem set_len_lt (a n : ℕ) : _set_len a n < 2 ^ 128 :=
  Nat.or_lt_two_pow (Nat.and_lt_two_pow a (unot_lt LEN_MASK_lt)) (shl_lt n SIZE_BITS)

theorem append_ok (a item : ℕ) (hcap : _len a < _cap (_size a))
    (hfit : _mask (_size a) &&& item = item) :
    append a item = Except.ok (_set_len a (_len a + 1) |||
      shl item (_len a * _size a + META_BITS)) := by
  have hchk : _check_insert (_size a) (_len a) item = .ok () := by
    rw [_check_insert, if_neg (by omega : ¬ _len a ≥ _cap (_size a)),
      if_neg (fun hc => hc hfit)]
  simp only [append, hchk]

theorem len_append_word (a item : ℕ) (hceil : _len a < 31) :
    _len (_set_len a (_len a + 1) ||| shl item (_len a * _size a + META_BITS)) =
      _len a + 1 := by
  have hm8 : META_BITS = 8 := rfl
  apply len_eq_of_bits (by omega)
  intro k hk
  rw [hm8, Nat.testBit_or, testBit_set_len_mid (by omega) (by omega),
    show 3 + k - 3 = k by omega, testBit_shl,
    decide_eq_false (by omega : ¬ 3 + k ≥ _len a * _size a + 8)]
  simp

theorem size_append_word (a item : ℕ) (h128 : a < 2 ^ 128) (hceil : _len a < 31) :
    _size (_set_len a (_len a + 1) ||| shl item (_len a * _size a + META_BITS)) =
      _size a := by
  have hm8 : META_BITS = 8 := rfl
  apply size_congr
  intro i hi
  rw [hm8, Nat.testBit_or, testBit_set_len_low h128 (by omega) (Or.inl hi), testBit_shl,
    decide_eq_false (by omega : ¬ i ≥ _len a * _size a + 8)]
  simp

/-- C2: on a valid word with `length < capacity` and `length` below the 5-bit
structural ceiling, appending a fitting item succeeds and the encoded length
field of the result is the old length plus one, still at most the capacity
(for every element width, including widths 1 and 2 whose capacity exceeds 31). -/
theorem append_len_field (a item : ℕ) (h128 : a < 2 ^ 128) (hceil : _len a < 31)
    (hcap : _len a < _cap (_size a)) (hfit : _mask (_size a) &&& item = item) :
    ∃ r, append a item = Except.ok r ∧ _len r = _len a + 1 ∧
      _len r ≤ _cap (_size a) := by
  refine ⟨_, append_ok a item hcap hfit, ?_, ?_⟩
  · exact len_append_word a item hceil
  · rw [len_append_word a item hceil]
    omega

/-- Witness for `append_len_field` on a width-1 word with length field 30
(capacity 120): `append` keeps the length field consistent at 31. -/
theorem append_len_field_witness :
    (240 : ℕ) < 2 ^ 128 ∧ _len 240 < 31 ∧ _len 240 < _cap (_size 240) ∧
    _mask (_size 240) &&& 1 = 1 ∧ append 240 1 = Except.ok 274877907192 ∧
    _len 274877907192 = _len 240 + 1 ∧ _len 274877907192 ≤ _cap (_size 240) := by
  obtain ⟨r, h1, h2, h3⟩ :=
    append_len_field 240 1 (by norm_num) (by decide) (by decide) (by decide)
  have hr : r = 274877907192 := by
    rw [show append 240 1 = Except.ok 274877907192 from by decide] at h1
    injection h1.symm
  subst hr
  exact ⟨by norm_num, by decide, by decide, by decide, h1, h2, h3⟩

/-- C3 counterexample: the raw word 256 (size-class 0 — width 1, length 0) is
accepted by `from_raw` but has a nonzero don't-care bit at data offset 0.
`append(0)` ORs the new item into that slot without clearing it, so `at(0)` on
the result returns the garbage bit 1, not the appended value 0. -/
theorem append_reads_garbage_cex :
    from_raw 256 = Except.ok 256 ∧ _len 256 < _cap (_size 256) ∧
    _mask (_size 256) &&& 0 = 0 ∧ append 256 0 = Except.ok 264 ∧
    at' 264 0 = some 1 ∧ at' 264 0 ≠ some 0 :=
  ⟨rfl, by decide, by decide, rfl, by decide, by decide⟩

theorem append_word_at (a item : ℕ) (h128 : a < 2 ^ 128) (hceil : _len a < 31)
    (hcap : _len a < _cap (_size a)) (hfit : _mask (_size a) &&& item = item)
    (hclean : a >>> (_len a * _size a + META_BITS) = 0) :
    at' (_set_len a (_len a + 1) ||| shl item (_len a * _size a + META_BITS)) (_len a)
      = some item := by
  have hm8 : META_BITS = 8 := rfl
  rw [hm8] at hclean
  have hs1 := size_pos a
  have hmul := lt_cap_mul hcap
  have hmul' : (_len a + 1) * _size a = _len a * _size a + _size a := by ring
  have hw128 : _set_len a (_len a + 1) ||| shl item (_len a * _size a + META_BITS)
      < 2 ^ 128 := Nat.or_lt_two_pow (set_len_lt a _) (shl_lt item _)
  have hcl : ∀ m, a.testBit (_len a * _size a + 8 + m) = false := by
    intro m
    have h0 := congrArg (fun x => Nat.testBit x m) hclean
    simpa [Nat.testBit_shiftRight] using h0
  rw [at_spec hw128 (by rw [len_append_word a item hceil]; omega),
    size_append_word a item h128 hceil, hm8]
  congr 1
  apply Nat.eq_of_testBit_eq
  intro j
  rw [testBit_field, Nat.testBit_or]
  rcases Nat.lt_or_ge j (_size a) with hj | hj
  · rw [decide_eq_true hj, Bool.and_true,
      show _size a * _len a + 8 + j = _len a * _size a + 8 + j by ring_nf,
      testBit_set_len_low h128 (by omega) (Or.inr (by omega)), hcl j, testBit_shl,
      decide_eq_true (by omega : _len a * _size a + 8 + j < 128),
      decide_eq_true (by omega : _len a * _size a + 8 + j ≥ _len a * _size a + 8),
      show _len a * _size a + 8 + j - (_len a * _size a + 8) = j by omega]
    simp
  · rw [decide_eq_false (by omega : ¬ j < _size a), Bool.and_false]
    have : item < 2 ^ _size a := fits_iff.mp hfit
    have hb : item.testBit j = false := by
      apply Nat.testBit_lt_two_pow
      exact lt_of_lt_of_le this (Nat.pow_le_pow_right (by norm_num) hj)
    rw [hb]

/-- C3 (amended): on a valid word whose data-region bits at and beyond
`length * element_width` are all zero, with `length < capacity` and below the
31-entry ceiling, `append(item)` of a fitting item gives a word on which
`at(old_length)` returns `Some item` and the length is `old_length + 1`. -/
theorem append_at_of_clean (a item : ℕ) (h128 : a < 2 ^ 128) (hceil : _len a < 31)
    (hcap : _len a < _cap (_size a)) (hfit : _mask (_size a) &&& item = item)
    (hclean : a >>> (_len a * _size a + META_BITS) = 0) :
    ∃ r, append a item = Except.ok r ∧ at' r (_len a) = some item ∧
      _len r = _len a + 1 :=
  ⟨_, append_ok a item hcap hfit,
    append_word_at a item h128 hceil hcap hfit hclean,
    len_append_word a item hceil⟩

/-- Witness for `append_at_of_clean` on `524314 = [0, 0, 8]` (clean data
region): `append(4)` gives `4718626` with `at(3) = Some 4` and length 4. -/
theorem append_at_of_clean_witness :
    (524314 : ℕ) < 2 ^ 128 ∧ _len 524314 < 31 ∧ _len 524314 < _cap (_size 524314) ∧
    _mask (_size 524314) &&& 4 = 4 ∧
    524314 >>> (_len 524314 * _size 524314 + META_BITS) = 0 ∧
    append 524314 4 = Except.ok 4718626 ∧ at' 4718626 (_len 524314) = some 4 ∧
    _len 4718626 = _len 524314 + 1 := by
  obtain ⟨r, h1, h2, h3⟩ :=
    append_at_of_clean 524314 4 (by norm_num) (by decide) (by decide) (by decide)
      (by decide)
  have hr : r = 4718626 := by
    rw [show append 524314 4 = Except.ok 4718626 from by decide] at h1
    injection h1.symm
  subst hr
  exact ⟨by norm_num, by decide, by decide, by decide, by decide, h1, h2, h3⟩

theorem iterCollect_step (a n index : ℕ) :
    iterCollect a (n + 1) index =
      (match iterNext a index with
       | (_, none) => []
       | (index', some v) => v :: iterCollect a n index') :=
  rfl

theorem iterCollect_spec (a : ℕ) :
    ∀ fuel idx, _len a ≤ idx + fuel →
      (iterCollect a fuel idx).length = _len a - idx ∧
      (∀ j, idx + j < _len a → (iterCollect a fuel idx).get? j = at' a (idx + j)) := by
  intro fuel
  induction fuel with
  | zero =>
    intro idx h
    refine ⟨by simp [iterCollect]; omega, fun j hj => by omega⟩
  | succ n ih =>
    intro idx h
    rcases Nat.lt_or_ge idx (_len a) with hidx | hidx
    · have hat : at' a idx =
          some ((shl (_mask (_size a)) (_size a * idx + META_BITS) &&& a) >>>
            (_size a * idx + META_BITS)) := by
        rw [at', if_neg (by omega : ¬ idx ≥ _len a), _at]
      rw [iterCollect_step]
      simp only [iterNext, Nat.add_sub_cancel, hat]
      have hih := ih (idx + 1) (by omega)
      constructor
      · simp only [List.length_cons, hih.1]
        omega
      · intro j hj
        cases j with
        | zero =>
          simp only [List.get?, Nat.add_zero, hat]
        | succ m =>
          have hm := hih.2 m (by omega)
          simpa [show idx + 1 + m = idx + (m + 1) by omega] using hm
    · have hat : at' a idx = none := by
        rw [at', if_pos (by omega : idx ≥ _len a)]
      rw [iterCollect_step]
      simp only [iterNext, Nat.add_sub_cancel, hat]
      refine ⟨by simp; omega, fun j hj => by omega⟩

/-- C9: one full iteration of the array yields exactly the elements
`at(0), ..., at(length - 1)` in ascending index order — `length` items in
total — and, the model being a pure function of the immutable snapshot,
re-iterating yields the same sequence. -/
theorem iterator_spec (a : ℕ) (hval : _len a ≤ _cap (_size a)) :
    (produce_sequence a).length = _len a ∧
    (∀ j, j < _len a → (produce_sequence a).get? j = at' a j) := by
  have h := iterCollect_spec a (_len a + 1) 0 (by omega)
  exact ⟨by simpa using h.1, fun j hj => by simpa using h.2 j (by omega)⟩

/-- Witness for `iterator_spec` on `4399394 = [1, 2, 3, 4]` (width 8). -/
theorem iterator_spec_witness :
    _len 4399394 ≤ _cap (_size 4399394) ∧
    (produce_sequence 4399394).length = _len 4399394 ∧
    (produce_sequence 4399394).get? 2 = at' 4399394 2 ∧
    produce_sequence 4399394 = [1, 2, 3, 4] := by
  have h := iterator_spec 4399394 (by decide)
  exact ⟨by decide, h.1, h.2 2 (by decide), by decide⟩

/-- C6: `new_size` rejects widths above half the word width with
`SizeTooLarge`, rejects non-powers-of-two with `NotPowerOfTwo`, and otherwise
returns the raw word `log2 width`: size-class field `log2 width`, length 0,
data region 0. -/
theorem new_size_spec (width : ℕ) :
    (64 < width → new_size width = Except.error UintError.SizeTooLarge) ∧
    (width ≤ 64 → (∀ k, width ≠ 2 ^ k) →
      new_size width = Except.error UintError.NotPowerOfTwo) ∧
    (∀ k, width = 2 ^ k → width ≤ 64 →
      new_size width = Except.ok k ∧ k &&& SIZE_MASK = k ∧ _size k = width ∧
      _len k = 0 ∧ k >>> META_BITS = 0) := by
  refine ⟨?_, ?_, ?_⟩
  · intro h
    rw [new_size, if_pos (by omega : width > 16 * 4)]
  · intro h1 h2
    rw [new_size, if_neg (by omega : ¬ width > 16 * 4), if_pos (h2 _)]
  · rintro k rfl hle
    have h7 : (2 : ℕ) ^ 7 = 128 := by norm_num
    have hk6 : k ≤ 6 := by
      by_contra hk
      push_neg at hk
      have h2k : 2 ^ 7 ≤ 2 ^ k := Nat.pow_le_pow_right (by norm_num) (by omega)
      omega
    have hlog : Nat.log2 (2 ^ k) = k := Nat.log2_two_pow
    have hand : k &&& SIZE_MASK = k := by
      have hs7 : SIZE_MASK = 7 := rfl
      rw [hs7, show (7 : ℕ) = 2 ^ 3 - 1 by norm_num, Nat.and_pow_two_sub_one_eq_mod]
      exact Nat.mod_eq_of_lt (by omega)
    refine ⟨?_, hand, ?_, ?_, ?_⟩
    · rw [new_size, if_neg (by omega : ¬ 2 ^ k > 16 * 4),
        if_neg (show ¬ (2 ^ k ≠ 2 ^ Nat.log2 (2 ^ k)) from fun hc => hc (by rw [hlog])),
        hlog]
    · rw [size_eq]
      have hs7 : SIZE_MASK = 7 := rfl
      rw [← hs7, hand]
    · rw [len_eq, Nat.shiftRight_eq_div_pow, Nat.div_eq_of_lt (by omega : k < 2 ^ 3)]
      simp
    · have hm8 : META_BITS = 8 := rfl
      have h8 : (2 : ℕ) ^ 8 = 256 := by norm_num
      rw [hm8, Nat.shiftRight_eq_div_pow]
      exact Nat.div_eq_of_lt (by omega)

/-- Witness for `new_size_spec`: width 65 is too large, width 12 is not a power
of two, width 16 builds the raw word 4 (size-class 4, length 0, data 0). -/
theorem new_size_spec_witness :
    new_size 65 = Except.error UintError.SizeTooLarge ∧
    new_size 12 = Except.error UintError.NotPowerOfTwo ∧
    (new_size 16 = Except.ok 4 ∧ 4 &&& SIZE_MASK = 4 ∧ _size 4 = 16 ∧
      _len 4 = 0 ∧ 4 >>> META_BITS = 0) := by
  have h12 : ∀ k, (12 : ℕ) ≠ 2 ^ k := by
    intro k
    rcases Nat.lt_or_ge k 4 with hk | hk
    · interval_cases k <;> norm_num
    · intro hc
      have h16 : (2 : ℕ) ^ 4 ≤ 2 ^ k := Nat.pow_le_pow_right (by norm_num) hk
      rw [← hc] at h16
      norm_num at h16
  exact ⟨(new_size_spec 65).1 (by norm_num),
    (new_size_spec 12).2.1 (by norm_num) h12,
    (new_size_spec 16).2.2 4 (by norm_num) (by norm_num)⟩

/-- C1, evaluated at the failing input: `new_size 64` builds the raw word 6
(width 64, capacity 1, length 0); extending by the one-element sequence `[0]`
would exactly fill the capacity and the element fits, yet `extend` raises
`CapacityExceeded` because its final check rejects `new_len = cap` (and its
in-loop check compares the consumed count against the full capacity, ignoring
the current length). -/
theorem extend_rejects_exact_fill :
    new_size 64 = Except.ok 6 ∧ _cap (_size 6) = 1 ∧ _len 6 = 0 ∧
    _mask (_size 6) &&& 0 = 0 ∧
    extend 6 [0] = Except.error UintError.CapacityExceeded := by
  have hlog : Nat.log2 64 = 6 := by
    rw [show (64 : ℕ) = 2 ^ 6 by norm_num, Nat.log2_two_pow]
  refine ⟨?_, by decide, by decide, by decide, by decide⟩
  rw [new_size, if_neg (by norm_num : ¬ (64 : ℕ) > 16 * 4),
    if_neg (show ¬ ((64 : ℕ) ≠ 2 ^ Nat.log2 64) from fun hc => hc (by rw [hlog]; norm_num)),
    hlog]

theorem extendLoop_ok {size cap : ℕ} :
    ∀ (l : List ℕ) (k m it : ℕ), k + l.length ≤ cap →
      ∃ items, extendLoop size cap l k m it =
        Except.ok (k + l.length,
          List.foldl (fun acc i => if i > acc then i else acc) m l, items) := by
  intro l
  induction l with
  | nil =>
    intro k m it _
    exact ⟨it, by simp [extendLoop]⟩
  | cons i rest ih =>
    intro k m it h
    simp only [List.length_cons] at h
    simp only [extendLoop, List.length_cons, List.foldl_cons]
    rw [if_neg (by omega : ¬ k + 1 > cap),
      show k + (rest.length + 1) = k + 1 + rest.length by omega]
    exact ih (k + 1) (if i > m then i else m) _ (by omega)

theorem foldl_max_lt {B : ℕ} :
    ∀ (l : List ℕ) (m : ℕ),
      List.foldl (fun acc i => if i > acc then i else acc) m l < B ↔
        m < B ∧ ∀ x ∈ l, x < B := by
  intro l
  induction l with
  | nil => intro m; simp
  | cons i rest ih =>
    intro m
    simp only [List.foldl_cons, List.mem_cons]
    rw [ih]
    by_cases hmi : i > m
    · rw [if_pos hmi]
      constructor
      · rintro ⟨h1, h2⟩
        exact ⟨by omega, fun x hx => hx.elim (fun hh => hh ▸ h1) (h2 x)⟩
      · rintro ⟨h1, h2⟩
        exact ⟨h2 i (Or.inl rfl), fun x hx => h2 x (Or.inr hx)⟩
    · rw [if_neg hmi]
      constructor
      · rintro ⟨h1, h2⟩
        refine ⟨h1, fun x hx => hx.elim (fun hh => by omega) (h2 x)⟩
      · rintro ⟨h1, h2⟩
        exact ⟨h1, fun x hx => h2 x (Or.inr hx)⟩

/-- C5 (amended): when the batch respects the capacity (current length plus
sequence length below capacity, so no capacity error preempts the fitness
check), `extend` raises `ValueOutOfRange` exactly when some element of the
sequence does not fit the element-width mask — the source's single check of
the running maximum is equivalent to checking every element. -/
theorem extend_value_error_iff (a : ℕ) (l : List ℕ)
    (hcap : _len a + l.length < _cap (_size a)) :
    (extend a l = Except.error UintError.ValueOutOfRange ↔
      ∃ x ∈ l, _mask (_size a) &&& x ≠ x) := by
  obtain ⟨items, hloop⟩ :=
    @extendLoop_ok (_size a) (_cap (_size a)) l 0 0 0 (by omega)
  have hpow : (0 : ℕ) < 2 ^ _size a := Nat.pos_pow_of_pos _ (by norm_num)
  by_cases hM : _mask (_size a) &&&
      List.foldl (fun acc i => if i > acc then i else acc) 0 l =
        List.foldl (fun acc i => if i > acc then i else acc) 0 l
  · have hchk : _check_insert (_size a) (_len a + (0 + l.length))
        (List.foldl (fun acc i => if i > acc then i else acc) 0 l) = .ok () := by
      rw [_check_insert,
        if_neg (by omega : ¬ _len a + (0 + l.length) ≥ _cap (_size a)),
        if_neg (show ¬ _mask (_size a) &&& _ ≠ _ from fun hc => hc hM)]
    simp only [extend, hloop, hchk]
    constructor
    · intro hc
      exact Except.noConfusion hc
    · rintro ⟨x, hx, hxfit⟩
      exfalso
      apply hxfit
      rw [fits_iff]
      exact ((foldl_max_lt l 0).mp (fits_iff.mp hM)).2 x hx
  · have hchk : _check_insert (_size a) (_len a + (0 + l.length))
        (List.foldl (fun acc i => if i > acc then i else acc) 0 l) =
          .error .ValueOutOfRange := by
      rw [_check_insert,
        if_neg (by omega : ¬ _len a + (0 + l.length) ≥ _cap (_size a)), if_pos hM]
    simp only [extend, hloop, hchk]
    constructor
    · intro _
      have hMge : ¬ List.foldl (fun acc i => if i > acc then i else acc) 0 l <
          2 ^ _size a := fun hc => hM (fits_iff.mpr hc)
      rw [foldl_max_lt] at hMge
      push_neg at hMge
      obtain ⟨x, hx, hxge⟩ := hMge hpow
      refine ⟨x, hx, fun hc => ?_⟩
      have := fits_iff.mp hc
      omega
    · intro _
      trivial

/-- Witness for `extend_value_error_iff` on the width-4 empty word 2
(capacity 30): extending by `[16]` (16 does not fit in 4 bits) raises
`ValueOutOfRange`. -/
theorem extend_value_error_iff_witness :
    _len 2 + [(16 : ℕ)].length < _cap (_size 2) ∧
    extend 2 [(16 : ℕ)] = Except.error UintError.ValueOutOfRange :=
  ⟨by decide, (extend_value_error_iff 2 [16] (by decide)).mpr
    ⟨16, by simp, by decide⟩⟩

/-- C5 counterexample: on the width-64 word 6 (capacity 1, length 0) extended
by `[2^64]`, an element fails to fit the element width, yet the error raised is
`CapacityExceeded`, not `ValueOutOfRange` — the capacity check (which rejects
even this exactly-filling batch) takes precedence, so "raises `ValueOutOfRange`
iff some element does not fit" is false as stated. -/
theorem extend_value_error_cex :
    _mask (_size 6) &&& 18446744073709551616 ≠ 18446744073709551616 ∧
    extend 6 [18446744073709551616] ≠ Except.error UintError.ValueOutOfRange ∧
    extend 6 [18446744073709551616] = Except.error UintError.CapacityExceeded :=
  ⟨by decide, by decide, by decide⟩

theorem check_insert_ok {size len item : ℕ}
    (h : _check_insert size len item = Except.ok ()) :
    len < _cap size ∧ _mask size &&& item = item := by
  by_cases h1 : len ≥ _cap size
  · rw [_check_insert, if_pos h1] at h
    exact Except.noConfusion h
  · by_cases h2 : _mask size &&& item ≠ item
    · rw [_check_insert, if_neg h1, if_pos h2] at h
      exact Except.noConfusion h
    · exact ⟨by omega, not_not.mp h2⟩

theorem extendLoop_shifts_bound {size cap : ℕ} (hs : 0 < size)
    (hcap : cap * size ≤ 120) :
    ∀ (l : List ℕ) (k x : ℕ), x ∈ extendLoop_shifts size cap l k → x < 128 := by
  intro l
  induction l with
  | nil => intro k x hx; cases hx
  | cons i rest ih =>
    intro k x hx
    rw [extendLoop_shifts] at hx
    by_cases hc : k + 1 > cap
    · rw [if_pos hc] at hx
      cases hx
    · rw [if_neg hc] at hx
      rcases List.mem_cons.mp hx with rfl | hx'
      · have h1 : (k + 1) * size ≤ cap * size := Nat.mul_le_mul_right _ (by omega)
        have h2 : (k + 1) * size = k * size + size := by ring
        have h3 : (k + 1 - 1) * size = k * size := by
          rw [Nat.add_sub_cancel]
        omega
      · exact ih (k + 1) x hx'

/-- C10 (amended): on every raw word accepted by `from_raw` whose element
width is at most `W/2 = 64` (size-class at most 6), every bit-shift amount
executed by `at`, `insert`, `pop`, `remove`, and `extend` is strictly below
the word width 128, so none of them can reach a shift-overflow panic; width
128 must be excluded because `remove`'s scan computes `_mask(128)`. -/
theorem shift_amounts_bounded (a : ℕ) (hraw : from_raw a = Except.ok a)
    (hsz : _size a ≤ 64) :
    (∀ pos x, x ∈ at_shifts a pos → x < 128) ∧
    (∀ pos item x, x ∈ insert_shifts a pos item → x < 128) ∧
    (∀ pos x, x ∈ pop_shifts a pos → x < 128) ∧
    (∀ item x, x ∈ remove_shifts a item → x < 128) ∧
    (∀ (l : List ℕ) (x : ℕ), x ∈ extend_shifts a l → x < 128) := by
  have hval : _len a ≤ _cap (_size a) := by
    by_contra hc
    push_neg at hc
    rw [from_raw, if_pos hc] at hraw
    exact Except.noConfusion hraw
  have hs1 := size_pos a
  have hsc : a &&& SIZE_MASK ≤ 7 := Nat.and_le_right
  have hm8 : META_BITS = 8 := rfl
  have hsb : SIZE_BITS = 3 := rfl
  have hlm := le_cap_mul hval
  have hcapmul : _cap (_size a) * _size a ≤ 120 := by
    rw [cap_eq]
    exact Nat.div_mul_le_self 120 _
  have hoffb : ∀ p, p < _len a → _size a * p + 8 ≤ 127 := by
    intro p hp
    have h1 : _size a * (p + 1) ≤ _size a * _len a := Nat.mul_le_mul_left _ (by omega)
    have h2 : _size a * (p + 1) = _size a * p + _size a := by ring
    have h3 : _size a * _len a = _len a * _size a := by ring
    omega
  have hoffb' : ∀ p, p ≤ _len a → _len a < _cap (_size a) →
      p * _size a + 8 ≤ 127 := by
    intro p hp hltcap
    have h1 : (p + 1) * _size a ≤ _cap (_size a) * _size a :=
      Nat.mul_le_mul_right _ (by omega)
    have h2 : (p + 1) * _size a = p * _size a + _size a := by ring
    omega
  refine ⟨?_, ?_, ?_, ?_, ?_⟩
  · -- at
    intro pos x hx
    rw [at_shifts, len_shifts, size_shifts, hm8, hsb] at hx
    rcases Nat.lt_or_ge pos (_len a) with hp | hp
    · rw [if_neg (by omega : ¬ pos ≥ _len a)] at hx
      have := hoffb pos hp
      simp only [List.mem_append, List.mem_cons, List.not_mem_nil, or_false,
        List.mem_singleton] at hx
      rcases hx with h | h | h | h | h <;> omega
    · rw [if_pos hp] at hx
      simp only [List.mem_append, List.mem_singleton, List.not_mem_nil, or_false] at hx
      omega
  · -- insert
    intro pos item x hx
    rw [insert_shifts, len_shifts, size_shifts, check_insert_shifts, hm8, hsb] at hx
    cases hchk : _check_insert (_size a) (_len a) item with
    | error e =>
      rw [hchk] at hx
      rcases Nat.lt_or_ge (_len a) (_cap (_size a)) with hcl | hcl
      · rw [if_neg (by omega : ¬ _len a ≥ _cap (_size a))] at hx
        simp only [List.mem_append, List.mem_cons, List.mem_singleton,
          List.not_mem_nil, or_false] at hx
        rcases hx with h | h | h <;> omega
      · rw [if_pos (by omega : _len a ≥ _cap (_size a))] at hx
        simp only [List.mem_append, List.mem_cons, List.mem_singleton,
          List.not_mem_nil, or_false] at hx
        rcases hx with h | h <;> omega
    | ok u =>
      have hcl := (check_insert_ok hchk).1
      rw [hchk, if_neg (by omega : ¬ _len a ≥ _cap (_size a))] at hx
      have hb : (if pos > _len a then _len a else pos) * _size a + 8 ≤ 127 := by
        by_cases hc : pos > _len a
        · rw [if_pos hc]
          exact hoffb' _ (Nat.le_refl _) hcl
        · rw [if_neg hc]
          exact hoffb' _ (by omega) hcl
      simp only [List.mem_append, List.mem_cons, List.mem_singleton,
        List.not_mem_nil, or_false] at hx
      rcases hx with h | h | h | h | h | h | h <;> omega
  · -- pop
    intro pos x hx
    rw [pop_shifts, len_shifts, size_shifts, hm8, hsb] at hx
    rcases Nat.lt_or_ge pos (_len a) with hp | hp
    · rw [if_neg (by omega : ¬ pos ≥ _len a)] at hx
      have h1 : _size a * pos + 8 ≤ 127 := hoffb pos hp
      have h2 : _size a * pos = pos * _size a := by ring
      simp only [List.mem_append, List.mem_cons, List.mem_singleton,
        List.not_mem_nil, or_false] at hx
      rcases hx with h | h | h | h | h | h | h | h <;> omega
    · rw [if_pos hp] at hx
      simp only [List.mem_append, List.mem_singleton, List.not_mem_nil, or_false] at hx
      omega
  · -- remove
    intro item x hx
    have hscan : index_scan_len a item (_len a) (_size a) ≤ _len a := by
      cases hidx : _index a item (_len a) (_size a) with
      | none =>
        rw [index_scan_len, hidx]
      | some p =>
        have hlt := index_lt_len hidx
        rw [index_scan_len, hidx]
        show p + 1 ≤ _len a
        omega
    rw [remove_shifts, len_shifts, size_shifts] at hx
    simp only [hm8, hsb] at hx
    rcases List.mem_append.mp hx with h4 | hM
    · rcases List.mem_append.mp h4 with h3 | hJ
      · rcases List.mem_append.mp h3 with h2 | hS
        · rcases List.mem_append.mp h2 with h1 | h1
          · simp only [List.mem_singleton] at h1
            omega
          · simp only [List.mem_singleton] at h1
            omega
        · simp only [List.mem_singleton] at hS
          omega
      · simp only [List.mem_flatten, List.mem_map, List.mem_range] at hJ
        obtain ⟨lsub, ⟨i, hi, rfl⟩, hxin⟩ := hJ
        have h1 : _size a * i + 8 ≤ 127 := hoffb i (by omega)
        have h2 : _size a * i = i * _size a := by ring
        simp only [List.mem_cons, List.mem_singleton, List.not_mem_nil,
          or_false] at hxin
        rcases hxin with h | h <;> omega
    · cases hidx : _index a item (_len a) (_size a) with
      | none =>
        rw [hidx] at hM
        cases hM
      | some p =>
        rw [hidx] at hM
        have hp := index_lt_len hidx
        have h1 : _size a * p + 8 ≤ 127 := hoffb p hp
        have h2 : _size a * p = p * _size a := by ring
        simp only [List.mem_cons, List.mem_singleton, List.not_mem_nil,
          or_false] at hM
        rcases hM with h | h | h <;> omega
  · -- extend
    intro l x hx
    rw [extend_shifts, len_shifts, size_shifts, hm8, hsb] at hx
    simp only [List.mem_append] at hx
    rcases hx with ((h | h) | h) | h
    · simp only [List.mem_singleton] at h
      omega
    · simp only [List.mem_singleton] at h
      omega
    · exact extendLoop_shifts_bound hs1 hcapmul l 0 x h
    · cases hloop : extendLoop (_size a) (_cap (_size a)) l 0 0 0 with
      | error e =>
        rw [hloop] at h
        cases h
      | ok t =>
        obtain ⟨iter_len, mx, items⟩ := t
        rw [hloop] at h
        simp only [List.mem_append] at h
        rcases h with h | h
        · rw [check_insert_shifts] at h
          rcases Nat.lt_or_ge (_len a + iter_len) (_cap (_size a)) with hcl | hcl
          · rw [if_neg (by omega : ¬ _len a + iter_len ≥ _cap (_size a))] at h
            simp only [List.mem_singleton] at h
            omega
          · rw [if_pos (by omega : _len a + iter_len ≥ _cap (_size a))] at h
            cases h
        · cases hchk : _check_insert (_size a) (_len a + iter_len) mx with
          | error e =>
            rw [hchk] at h
            cases h
          | ok u =>
            have hcl := (check_insert_ok hchk).1
            rw [hchk] at h
            have h1 : _len a * _size a + 8 ≤ 127 := hoffb' (_len a) (Nat.le_refl _)
              (by omega)
            have h2 : _len a * _size a = _size a * _len a := by ring
            simp only [List.mem_cons, List.mem_singleton, List.not_mem_nil,
              or_false] at h
            rcases h with h | h <;> omega

/-- Witness for `shift_amounts_bounded` at the valid word `524314` (width 4,
length 3): the slot-2 read offset 40 appears among `at`'s shifts and is below
128 by the theorem. -/
theorem shift_amounts_bounded_witness :
    from_raw 524314 = Except.ok 524314 ∧ _size 524314 ≤ 64 ∧
    (_size 524314 * 2 + META_BITS) ∈ at_shifts 524314 2 ∧
    _size 524314 * 2 + META_BITS < 128 :=
  ⟨by decide, by decide, by decide,
    (shift_amounts_bounded 524314 (by decide) (by decide)).1 2 _ (by decide)⟩

/-- C10 counterexample: the raw word 7 (size-class 7 — element width 128,
length 0, capacity 0) is accepted by `from_raw`, yet `remove` executes a shift
by exactly 128: its scan helper computes `_mask(size) = 1 << 128` before
testing the (empty) loop bound.  So not every shift amount on `from_raw`-valid
words is below the word width. -/
theorem shift_overflow_cex :
    from_raw 7 = Except.ok 7 ∧ _size 7 = 128 ∧ (128 : ℕ) ∈ remove_shifts 7 0 :=
  ⟨rfl, by decide, by decide⟩

end UintArray
